import Mathlib

/-!
Shallow embedding of the data-collection core of termpulse
(`src/termpulse/collectors.py`) and proofs about it.

Modelling conventions:
* Python `str` values that are only stored or compared are Lean `String`s;
  strings that are sliced and tokenised character by character are `List Char`.
* Python floats are idealised as exact arithmetic (`ℚ`, and `ℝ` where the
  source uses `math.log2`).
* External effects (the `git` subprocess, `time.time()`) are parameters:
  a `GitEnv` maps an argument list to `none` (failed command) or `some stdout`.
* Python code that can raise is embedded as `Option`-valued (`none` = raise).
-/

namespace Termpulse

/-- Round-half-to-even, the semantics of Python's builtin `round` on an exact
arithmetic idealisation of floats (result as an integer). -/
def rhe {α : Type} [LinearOrderedField α] [FloorRing α] (x : α) : ℤ :=
  if Int.fract x = 1/2 then (if Even ⌊x⌋ then ⌊x⌋ else ⌈x⌉) else round x

/-- Python `round(x, 1)`. -/
def pyRound1 (x : ℚ) : ℚ := (rhe (x * 10) : ℚ) / 10

/-- Python `round(x, 2)` (used on float values derived from `math.log2`). -/
noncomputable def pyRound2 (x : ℝ) : ℝ := (rhe (x * 100) : ℝ) / 100

/-! ### Git collector state (`GitState`, collectors.py lines 48-86) -/

/-- Snapshot of git repository state (`GitState` dataclass, with its
field defaults). -/
structure GitState where
  is_repo : Bool := false
  branch : String := ""
  ahead : ℤ := 0
  behind : ℤ := 0
  staged : ℕ := 0
  modified : ℕ := 0
  untracked : ℕ := 0
  conflicts : ℕ := 0
  last_commit_age_seconds : ℚ := 0
  last_commit_msg : String := ""
  recent_commits : List String := []
  stash_count : ℕ := 0
deriving DecidableEq, Repr

/-- `GitState.is_clean` property. -/
def GitState.is_clean (g : GitState) : Bool :=
  g.staged == 0 && g.modified == 0 && g.untracked == 0

/-- `GitState.total_changes` property. -/
def GitState.total_changes (g : GitState) : ℕ :=
  g.staged + g.modified + g.untracked

/-- `GitState.drift_minutes` property. -/
def GitState.drift_minutes (g : GitState) : ℚ :=
  g.last_commit_age_seconds / 60

/-- `GitState.drift_level` property: calm, warm, hot, critical
(`m` in the source is `self.drift_minutes`). -/
def GitState.drift_level (g : GitState) : String :=
  if g.drift_minutes < 15 then "calm"
  else if g.drift_minutes < 30 then "warm"
  else if g.drift_minutes < 60 then "hot"
  else "critical"

/-- One iteration of the porcelain status loop of `collect_git`
(collectors.py lines 114-125): classify one status line and bump the
counters.  A line of fewer than two characters is skipped. -/
def statusStep (st : GitState) (line : List Char) : GitState :=
  match line with
  | x :: y :: _ =>
    let st1 :=
      if x = 'U' ∨ y = 'U' then { st with conflicts := st.conflicts + 1 }
      else if x ∈ ['M', 'A', 'D', 'R', 'C'] then { st with staged := st.staged + 1 }
      else st
    if (y = 'M' ∨ y = 'D') ∧ x ≠ 'U' ∧ y ≠ 'U' then
      { st1 with modified := st1.modified + 1 }
    else if y = '?' ∧ x = '?' then
      { st1 with untracked := st1.untracked + 1 }
    else st1
  | _ => st

/-! ### Python string primitives used by the collectors -/

/-- Python `str.strip()` on a character list: drop leading and trailing
whitespace. -/
def pyStrip (l : List Char) : List Char :=
  ((l.dropWhile Char.isWhitespace).reverse.dropWhile Char.isWhitespace).reverse

/-- Python `str.split()` with no argument: maximal runs of non-whitespace
characters, empty tokens discarded.  (A non-whitespace character starts a new
token when the next character is whitespace or the end; otherwise it joins
the token started by the rest of the list.) -/
def wsTokens : List Char → List (List Char)
  | [] => []
  | c :: cs =>
    let r := wsTokens cs
    if c.isWhitespace then r
    else
      match cs with
      | [] => [[c]]
      | d :: _ =>
        if d.isWhitespace then [c] :: r
        else
          match r with
          | t :: ts => (c :: t) :: ts
          | [] => [[c]]

/-- Python `str.split(sep)` for a one-character separator: split at every
occurrence, keeping empty pieces (the result is always nonempty). -/
def splitOnChar (sep : Char) (l : List Char) : List (List Char) :=
  match l with
  | [] => [[]]
  | c :: cs =>
    let r := splitOnChar sep cs
    if c = sep then [] :: r
    else
      match r with
      | [] => [[c]]
      | p :: ps => (c :: p) :: ps

/-- Python `str.split(sep, 1)` for a one-character separator, when the
separator occurs: `some (before, after)`; `none` when it does not occur
(Python would return the one-element list `[s]`). -/
def splitOnceChar (sep : Char) (l : List Char) : Option (List Char × List Char) :=
  match l with
  | [] => none
  | c :: cs =>
    if c = sep then some ([], cs)
    else (fun p => (c :: p.1, p.2)) <$> splitOnceChar sep cs

/-- Python `str.splitlines()` restricted to `'\n'` separators (the only ones
occurring in the collectors' inputs): split at newlines, with no final empty
piece for a trailing newline. -/
def pySplitlines (l : List Char) : List (List Char) :=
  match l with
  | [] => []
  | _ =>
    let ps := splitOnChar '\n' l
    if ps.getLast? = some [] then ps.dropLast else ps

/-- Python `lines[-limit:]` for an `int` limit: the last `limit` lines when
`limit > 0`, the whole list when `limit = 0`, and `lines[(-limit):]` when
`limit < 0`. -/
def pySliceLast {α : Type} (limit : ℤ) (l : List α) : List α :=
  if 0 < limit then l.drop (l.length - limit.toNat) else l.drop (-limit).toNat

/-- Parse a nonempty all-digit character list as a natural number
(most significant digit first). -/
def digitsToNat? (l : List Char) : Option ℕ :=
  if l ≠ [] ∧ l.all Char.isDigit then
    some (l.foldl (fun n c => 10 * n + (c.toNat - '0'.toNat)) 0)
  else none

/-- Python `int(s)` on the decimal strings produced by git (optional sign,
then digits); `none` models the `ValueError` raised on anything else. -/
def pyInt? (l : List Char) : Option ℤ :=
  match pyStrip l with
  | '-' :: rest => (fun n => -(n : ℤ)) <$> digitsToNat? rest
  | '+' :: rest => (fun n => (n : ℤ)) <$> digitsToNat? rest
  | rest => (fun n => (n : ℤ)) <$> digitsToNat? rest

/-- Python `float(s)` on the decimal strings produced by git and zsh
(optional sign, digits, optional fractional part); `none` models the
`ValueError` raised on anything else. -/
def pyFloat? (l : List Char) : Option ℚ :=
  let core : List Char → Option ℚ := fun m =>
    match splitOnChar '.' m with
    | [a] => (fun n => (n : ℚ)) <$> digitsToNat? a
    | [a, b] =>
      if a ++ b ≠ [] ∧ (a ++ b).all Char.isDigit then
        some (((digitsToNat? a).getD 0 : ℚ) +
          ((digitsToNat? b).getD 0 : ℚ) / 10 ^ b.length)
      else none
    | _ => none
  match pyStrip l with
  | '-' :: rest => (fun q => -q) <$> core rest
  | '+' :: rest => core rest
  | rest => core rest

/-! ### Command collector (collectors.py lines 225-301) -/

/-- The static category table (`COMMAND_CATEGORIES`), in source order. -/
def COMMAND_CATEGORIES : List (String × List String) :=
  [("git", ["git"]),
   ("python", ["python", "python3", "pip", "pip3", "pytest", "mypy", "ruff"]),
   ("node", ["node", "npm", "npx", "yarn", "pnpm", "bun", "tsx", "ts-node"]),
   ("build", ["make", "cargo", "go", "gcc", "cmake", "gradle", "mvn"]),
   ("navigate", ["cd", "ls", "ll", "lll", "pwd", "fd", "rg", "bat", "cat", "less"]),
   ("edit", ["vim", "nvim", "nano", "code", "cursor", "emacs"]),
   ("docker", ["docker", "docker-compose", "podman", "kubectl", "k9s"]),
   ("shell", ["echo", "export", "source", "alias", "which", "type", "env"]),
   ("network", ["curl", "wget", "ssh", "scp", "rsync", "httpie"]),
   ("claude", ["claude", "grip", "gg", "ggr", "ggl", "sesh"])]

/-- The `for cat, cmds in COMMAND_CATEGORIES.items()` lookup loop of
`_categorize_command`: first matching category wins, else `"other"`. -/
def lookupCategory (base : String) : List (String × List String) → String
  | [] => "other"
  | (cat, cmds) :: rest => if cmds.contains base then cat else lookupCategory base rest

/-- `_categorize_command`: classify a command line into a category by the
basename of its first token. -/
def categorize_command (cmd : List Char) : String :=
  let base0 := if pyStrip cmd ≠ [] then (wsTokens (pyStrip cmd)).headD [] else []
  let base := (splitOnChar '/' base0).getLastD []
  lookupCategory base.asString COMMAND_CATEGORIES

/-- A parsed command from shell history (`CommandEntry` dataclass). -/
structure CommandEntry where
  raw : List Char
  command : List Char
  category : String
  timestamp : Option ℚ := none
deriving DecidableEq, Repr

/-- The zsh extended-history detection of the `collect_commands` loop
(collectors.py lines 273-284): on a `": "`-prefixed line, split once on
`';'` and, when that yields two parts, take the timestamp from
`parts[0].split(":")[1].strip()` via `float` (parse failures caught, leaving
`None`) and the command from `parts[1]`; otherwise the whole line is the
command with no timestamp. -/
def extractHistCmd (line : List Char) : Option ℚ × List Char :=
  match line with
  | ':' :: ' ' :: _ =>
    match splitOnceChar ';' line with
    | some (before, after) =>
      ((((splitOnChar ':' before).get? 1).bind fun t => pyFloat? (pyStrip t)), after)
    | none => (none, line)
  | _ => (none, line)

/-- The per-line body of the `collect_commands` loop (collectors.py lines
273-292): extract the optional timestamp and command, then keep the line
only if the command text is not blank. -/
def parseHistLine (line : List Char) : Option CommandEntry :=
  if pyStrip (extractHistCmd line).2 ≠ [] then
    some { raw := pyStrip (extractHistCmd line).2,
           command := (wsTokens (pyStrip (extractHistCmd line).2)).headD [],
           category := categorize_command (extractHistCmd line).2,
           timestamp := (extractHistCmd line).1 }
  else none

/-- `collect_commands(limit)`: the history file content is a parameter
(`none` models "no recognized history file exists, or reading/decoding it
raised").  The content is split into lines, truncated to `lines[-limit:]`,
and each line parsed by `parseHistLine`. -/
def collect_commands (histfile : Option (List Char)) (limit : ℤ) : List CommandEntry :=
  match histfile with
  | none => []
  | some content => (pySliceLast limit (pySplitlines content)).filterMap parseHistLine

/-- `command_distribution`: the category histogram (`Counter`) as
(distinct category, positive count) pairs; only its values and its size are
consumed by `collect_momentum`. -/
def command_distribution (entries : List CommandEntry) : List (String × ℕ) :=
  (entries.map CommandEntry.category).dedup.map
    (fun c => (c, (entries.map CommandEntry.category).count c))

/-! ### System collector CPU buffer (collectors.py lines 180-185) -/

/-- One `collect_system` call's effect on the process-wide `_cpu_history`
buffer: append the fresh sample, then truncate to the last 30 entries
(`_cpu_history[-30:]`) when the length exceeds 30.  The returned snapshot's
`cpu_history` is a copy of this buffer. -/
def cpuPush (hist : List ℚ) (sample : ℚ) : List ℚ :=
  if 30 < (hist ++ [sample]).length then
    (hist ++ [sample]).drop ((hist ++ [sample]).length - 30)
  else hist ++ [sample]

/-- The buffer contents after a sequence of `collect_system` calls observing
the given CPU samples, starting from the empty buffer of process start. -/
def cpuHistoryAfter (samples : List ℚ) : List ℚ :=
  samples.foldl cpuPush []

/-! ### Git environment and `collect_git` (collectors.py lines 89-145) -/

/-- The external world seen by the git-based collectors: `run args` is the
result of `_run_git(args)` (`none` on non-zero exit, missing binary or
timeout; `some stdout` with trailing whitespace already stripped otherwise),
and `now` is `time.time()`. -/
structure GitEnv where
  run : List String → Option String
  now : ℚ

/-- Python truthiness of an `Optional[str]`: `None` and `""` are falsy. -/
def truthy : Option String → Bool
  | some s => s ≠ ""
  | none => false

/-- Python `a or b or dflt` over optional strings. -/
def pyOrStr (a b : Option String) (dflt : String) : String :=
  match a with
  | some s =>
    if s ≠ "" then s
    else match b with
      | some t => if t ≠ "" then t else dflt
      | none => dflt
  | none =>
    match b with
    | some t => if t ≠ "" then t else dflt
    | none => dflt

/-- The ahead/behind parsing step of `collect_git`: on truthy output, split
on whitespace and, when exactly two fields result, parse both with `int`
(whose `ValueError` propagates, hence the `Option`); otherwise both stay 0. -/
def parseAheadBehind (ab : Option String) : Option (ℤ × ℤ) :=
  match ab with
  | some s =>
    if s ≠ "" then
      match wsTokens s.toList with
      | [a, b] => do
        let x ← pyInt? a
        let y ← pyInt? b
        pure (x, y)
      | _ => some (0, 0)
    else some (0, 0)
  | none => some (0, 0)

/-- `collect_git`: probe repository-ness, then branch, ahead/behind, status
counters, last-commit age/message, recent commits and stash count.  `none`
models an uncaught exception (malformed numeric output from git). -/
def collect_git (env : GitEnv) : Option GitState :=
  if env.run ["rev-parse", "--is-inside-work-tree"] ≠ some "true" then some {}
  else do
    let branch := pyOrStr (env.run ["branch", "--show-current"])
      (env.run ["rev-parse", "--short", "HEAD"]) "?"
    let ab ← parseAheadBehind
      (env.run ["rev-list", "--left-right", "--count", branch ++ "...@\x7bu\x7d"])
    let st0 : GitState := { is_repo := true, branch := branch, ahead := ab.1, behind := ab.2 }
    let st1 :=
      match env.run ["status", "--porcelain"] with
      | some s => if s ≠ "" then (pySplitlines s.toList).foldl statusStep st0 else st0
      | none => st0
    let age ←
      match env.run ["log", "-1", "--format=%ct"] with
      | some s => if s ≠ "" then (fun q => env.now - q) <$> pyFloat? s.toList else some (0 : ℚ)
      | none => some (0 : ℚ)
    let msg := (env.run ["log", "-1", "--format=%s"]).getD ""
    let recent :=
      match env.run ["log", "--oneline", "-5"] with
      | some s => if s ≠ "" then (pySplitlines s.toList).map List.asString else []
      | none => []
    let stash :=
      match env.run ["stash", "list"] with
      | some s => if s ≠ "" then (pySplitlines s.toList).length else 0
      | none => 0
    some { st1 with last_commit_age_seconds := age, last_commit_msg := msg,
                    recent_commits := recent, stash_count := stash }

/-! ### Diff collector (collectors.py lines 378-483) -/

/-- A changed file with diff statistics and content (`DiffFile` dataclass). -/
structure DiffFile where
  path : List Char
  status : String := "M"
  insertions : ℤ := 0
  deletions : ℤ := 0
  diff_lines : List String := []
deriving DecidableEq, Repr

/-- `DiffFile.total_changes` property. -/
def DiffFile.total_changes (f : DiffFile) : ℤ := f.insertions + f.deletions

/-- First index at which `sep` occurs as a contiguous sublist, if any. -/
def findSub? (sep : List Char) : List Char → Option ℕ
  | [] => if sep.isEmpty then some 0 else none
  | l@(_ :: rest) => if sep.isPrefixOf l then some 0 else (· + 1) <$> findSub? sep rest

/-- The rename-arrow separator `" -> "` of porcelain status output. -/
def arrowSep : List Char := [' ', '-', '>', ' ']

/-- The rename handling of `collect_diff_files`: when `" -> "` occurs in the
path, replace it by `path.split(" -> ")[1]` (the text between the first and
the second occurrence). -/
def renameTarget (path : List Char) : List Char :=
  match findSub? arrowSep path with
  | none => path
  | some i =>
    let rest := path.drop (i + arrowSep.length)
    match findSub? arrowSep rest with
    | none => rest
    | some j => rest.take j

/-- The status-precedence chain of `collect_diff_files` (lines 432-441). -/
def statusCode (x y : Char) : String :=
  if x = '?' ∧ y = '?' then "?"
  else if x = 'A' then "A"
  else if x = 'D' ∨ y = 'D' then "D"
  else if x = 'R' then "R"
  else "M"

/-- The porcelain-status parsing loop of `collect_diff_files` (lines
420-443): one `DiffFile` per status line of length ≥ 3, deduplicated by
path with a `seen` set (first occurrence wins). -/
def parseStatusFiles (lines : List (List Char)) : List DiffFile :=
  (lines.foldl
    (fun (acc : List DiffFile × List (List Char)) line =>
      match line with
      | x :: y :: _ :: rest =>
        let path := renameTarget (pyStrip rest)
        if path ∈ acc.2 then acc
        else (acc.1 ++ [{ path := path, status := statusCode x y }], path :: acc.2)
      | _ => acc)
    ([], [])).1

/-- A numstat count field: `int(s)` unless the field is `"-"` (binary file),
which counts as 0. -/
def toCount (s : List Char) : Option ℤ :=
  if s = ['-'] then some 0 else pyInt? s

/-- The inner `for f in files` loop of the numstat passes: update the first
file whose path equals `fpath` (assign for the unstaged pass, accumulate for
the staged pass) and stop; `none` models `int` raising. -/
def updateFirst (staged : Bool) (ins dels fpath : List Char) :
    List DiffFile → Option (List DiffFile)
  | [] => some []
  | f :: fs =>
    if f.path = fpath then do
      let i ← toCount ins
      let d ← toCount dels
      some ((if staged then
               { f with insertions := f.insertions + i, deletions := f.deletions + d }
             else
               { f with insertions := i, deletions := d }) :: fs)
    else do
      let fs' ← updateFirst staged ins dels fpath fs
      some (f :: fs')

/-- One numstat output line: split on tabs and, when exactly three fields
result (`insertions<TAB>deletions<TAB>path`), update the matching file. -/
def applyNumstatLine (staged : Bool) (files : List DiffFile) (line : List Char) :
    Option (List DiffFile) :=
  match splitOnChar '\t' line with
  | [ins, dels, fpath] => updateFirst staged ins dels fpath files
  | _ => some files

/-- One whole numstat pass of `collect_diff_files` (lines 446-469). -/
def applyNumstat (staged : Bool) (lines : List (List Char)) (files : List DiffFile) :
    Option (List DiffFile) :=
  lines.foldlM (applyNumstatLine staged) files

/-- The per-file diff-content fetch of `collect_diff_files` (lines 472-480):
unstaged diff first, then staged when the unstaged one is falsy; untracked
files are skipped. -/
def fetchDiff (env : GitEnv) (f : DiffFile) : DiffFile :=
  if f.status = "?" then f
  else
    let d1 := env.run ["diff", "--", f.path.asString]
    let d := if truthy d1 then d1 else env.run ["diff", "--cached", "--", f.path.asString]
    match d with
    | some s => if s ≠ "" then { f with diff_lines := (pySplitlines s.toList).map List.asString } else f
    | none => f

/-- Lexicographic comparison of character lists (Python `str` ordering on
the paths appearing here). -/
def charListLe : List Char → List Char → Bool
  | [], _ => true
  | _ :: _, [] => false
  | c :: cs, d :: ds => if c = d then charListLe cs ds else decide (c < d)

/-- The final sort key of `collect_diff_files` (line 482): by the pair
`(status == "?", path)`, untracked last. -/
def diffSortLe (a b : DiffFile) : Bool :=
  let ka := a.status == "?"
  let kb := b.status == "?"
  if ka = kb then charListLe a.path b.path else kb

/-- `collect_diff_files`: status parse, two numstat passes, per-file diff
text, then a stable sort putting untracked files last. -/
def collect_diff_files (env : GitEnv) : Option (List DiffFile) :=
  if env.run ["rev-parse", "--is-inside-work-tree"] ≠ some "true" then some []
  else
    match env.run ["status", "--porcelain"] with
    | none => some []
    | some s =>
      if s = "" then some []
      else do
        let files0 := parseStatusFiles (pySplitlines s.toList)
        let files1 ←
          match env.run ["diff", "--numstat"] with
          | some ns => if ns ≠ "" then applyNumstat false (pySplitlines ns.toList) files0 else pure files0
          | none => pure files0
        let files2 ←
          match env.run ["diff", "--numstat", "--cached"] with
          | some ns => if ns ≠ "" then applyNumstat true (pySplitlines ns.toList) files1 else pure files1
          | none => pure files1
        let files3 := files2.map (fetchDiff env)
        some (files3.mergeSort diffSortLe)

/-! ### Heatmap collector (collectors.py lines 486-509) -/

/-- File change frequency from recent git history (`HeatmapEntry`). -/
structure HeatmapEntry where
  path : List Char
  commit_count : ℕ := 0
  last_author : String := ""
deriving DecidableEq, Repr

/-- `Counter`-style increment on an association list that preserves
first-insertion order (Python dict semantics). -/
def bumpCount (assoc : List (List Char × ℕ)) (k : List Char) : List (List Char × ℕ) :=
  match assoc with
  | [] => [(k, 1)]
  | (k', n) :: rest => if k' = k then (k', n + 1) :: rest else (k', n) :: bumpCount rest k

/-- `collect_file_heatmap`: count path occurrences over the name-only log of
the last `commits` commits, take the `limit` most common (stable, ties by
first occurrence, matching `Counter.most_common`), and fetch each retained
path's last author. -/
def collect_file_heatmap (env : GitEnv) (commits limit : ℕ) : List HeatmapEntry :=
  if env.run ["rev-parse", "--is-inside-work-tree"] ≠ some "true" then []
  else
    match env.run ["log", "-" ++ toString commits, "--name-only", "--pretty=format:"] with
    | none => []
    | some s =>
      if s = "" then []
      else
        let counts := (pySplitlines s.toList).foldl
          (fun acc line =>
            let st := pyStrip line
            if st ≠ [] then bumpCount acc st else acc) []
        let top := (counts.mergeSort (fun a b => decide (b.2 ≤ a.2))).take limit
        top.map (fun pc =>
          { path := pc.1, commit_count := pc.2,
            last_author := (env.run ["log", "-1", "--format=%an", "--", pc.1.asString]).getD "" })

/-! ### Momentum collector (collectors.py lines 308-371) -/

/-- Developer momentum metrics (`MomentumState` dataclass).  `streak_minutes`
is declared by the source but never assigned. -/
structure MomentumState where
  session_start : ℚ := 0
  session_duration_minutes : ℚ := 0
  commits_this_session : ℕ := 0
  commit_velocity_per_hour : ℚ := 0
  command_diversity : ℝ := 0
  flow_score : ℝ := 0
  streak_minutes : ℚ := 0

/-- The `git log --oneline --since=1.hour.ago` commit count of
`collect_momentum` (lines 333-341): `logOutput` is the subprocess stdout
(`none` models a raised exception or a non-zero exit status, both of which
leave the count at 0); on truthy stripped output the count is its number of
lines. -/
def commitsFromLog (logOutput : Option String) : ℕ :=
  match logOutput with
  | some s => if pyStrip s.toList ≠ [] then (pySplitlines (pyStrip s.toList)).length else 0
  | none => 0

/-- The command-diversity computation of `collect_momentum` (lines 346-358):
normalized Shannon entropy of the category histogram, rounded to 2 decimals;
0 for an empty command list and 0 for at most one distinct category (the
source's `elif len(dist) == 1` branch and the untouched default both give
0.0). -/
noncomputable def commandDiversity (commands : List CommandEntry) : ℝ :=
  match commands with
  | [] => 0
  | _ :: _ =>
    let dist := command_distribution commands
    let total : ℕ := (dist.map Prod.snd).sum
    if 0 < total ∧ 1 < dist.length then
      let entropy : ℝ :=
        -(((dist.map Prod.snd).filter (fun c => 0 < c)).map
          (fun (c : ℕ) =>
            ((c : ℝ) / (total : ℝ)) * Real.logb 2 ((c : ℝ) / (total : ℝ)))).sum
      let maxEntropy : ℝ := Real.logb 2 (dist.length : ℝ)
      if 0 < maxEntropy then pyRound2 (entropy / maxEntropy) else 0
    else 0

/-- `collect_momentum`: session duration, trailing-hour commit velocity,
command diversity, and the weighted flow score.  `now` is `time.time()` and
`session_start` the process-wide `_session_start` constant. -/
noncomputable def collect_momentum (git : GitState) (commands : List CommandEntry)
    (logOutput : Option String) (now session_start : ℚ) : MomentumState :=
  let session_duration_minutes := (now - session_start) / 60
  let commits := commitsFromLog logOutput
  let hours : ℚ := max (session_duration_minutes / 60) (1/10)
  let velocity := pyRound1 ((commits : ℚ) / hours)
  let diversity := commandDiversity commands
  let drift_penalty : ℚ := if git.is_repo then min (git.drift_minutes / 60) 1 else 1/2
  let velocity_signal : ℚ := min (velocity / 3) 1
  let flow : ℝ := ((rhe (((velocity_signal : ℝ) * (0.4 : ℝ) + diversity * (0.3 : ℝ) +
      (1 - (drift_penalty : ℝ)) * (0.3 : ℝ)) * 100) : ℤ) : ℝ)
  { session_start := session_start,
    session_duration_minutes := session_duration_minutes,
    commits_this_session := commits,
    commit_velocity_per_hour := velocity,
    command_diversity := diversity,
    flow_score := flow }

/-! ### General lemmas about Python rounding -/

lemma floor_le_rhe {α : Type} [LinearOrderedField α] [FloorRing α] (x : α) :
    ⌊x⌋ ≤ rhe x := by
  unfold rhe
  split_ifs with h1 h2
  · exact le_refl _
  · exact Int.floor_le_ceil x
  · rw [round_eq]
    exact Int.floor_le_floor (by linarith)

lemma rhe_le_ceil {α : Type} [LinearOrderedField α] [FloorRing α] (x : α) :
    rhe x ≤ ⌈x⌉ := by
  unfold rhe
  split_ifs with h1 h2
  · exact Int.floor_le_ceil x
  · exact le_refl _
  · rw [round_eq, Int.floor_le_iff]
    have := Int.le_ceil x
    linarith

lemma rhe_mem_Icc {α : Type} [LinearOrderedField α] [FloorRing α] {x : α} {B : ℤ}
    (h0 : 0 ≤ x) (hB : x ≤ (B : α)) : 0 ≤ rhe x ∧ rhe x ≤ B := by
  constructor
  · exact le_trans (Int.floor_nonneg.mpr h0) (floor_le_rhe x)
  · exact le_trans (rhe_le_ceil x) (Int.ceil_le.mpr hB)

lemma rhe_intCast {α : Type} [LinearOrderedField α] [FloorRing α] (n : ℤ) :
    rhe ((n : ℤ) : α) = n := by
  unfold rhe
  rw [Int.fract_intCast]
  norm_num

/-! ### C7: drift-level thresholds -/

/-- C7: `driftLevel` is calm iff `driftMinutes < 15`, warm iff `15 ≤ m < 30`,
hot iff `30 ≤ m < 60`, critical iff `m ≥ 60`; concretely, ages 0s and 600s
give calm, 1200s warm, 2400s hot, 7200s critical. -/
theorem drift_level_boundaries :
    (∀ g : GitState,
      (g.drift_level = "calm" ↔ g.drift_minutes < 15) ∧
      (g.drift_level = "warm" ↔ 15 ≤ g.drift_minutes ∧ g.drift_minutes < 30) ∧
      (g.drift_level = "hot" ↔ 30 ≤ g.drift_minutes ∧ g.drift_minutes < 60) ∧
      (g.drift_level = "critical" ↔ 60 ≤ g.drift_minutes)) ∧
    ({ last_commit_age_seconds := 0 } : GitState).drift_level = "calm" ∧
    ({ last_commit_age_seconds := 600 } : GitState).drift_level = "calm" ∧
    ({ last_commit_age_seconds := 1200 } : GitState).drift_level = "warm" ∧
    ({ last_commit_age_seconds := 2400 } : GitState).drift_level = "hot" ∧
    ({ last_commit_age_seconds := 7200 } : GitState).drift_level = "critical" := by
  constructor
  · intro g
    unfold GitState.drift_level
    split_ifs with h1 h2 h3
    · exact ⟨iff_of_true rfl h1,
        iff_of_false (by decide) (by rintro ⟨h, -⟩; linarith),
        iff_of_false (by decide) (by rintro ⟨h, -⟩; linarith),
        iff_of_false (by decide) (by intro h; linarith)⟩
    · exact ⟨iff_of_false (by decide) h1,
        iff_of_true rfl ⟨not_lt.mp h1, h2⟩,
        iff_of_false (by decide) (by rintro ⟨h, -⟩; linarith),
        iff_of_false (by decide) (by intro h; linarith)⟩
    · exact ⟨iff_of_false (by decide) (by intro h; exact h1 (by linarith)),
        iff_of_false (by decide) (by rintro ⟨-, h⟩; exact h2 h),
        iff_of_true rfl ⟨not_lt.mp h2, h3⟩,
        iff_of_false (by decide) (by intro h; linarith)⟩
    · exact ⟨iff_of_false (by decide) (by intro h; exact h1 (by linarith)),
        iff_of_false (by decide) (by rintro ⟨-, h⟩; exact h2 h),
        iff_of_false (by decide) (by rintro ⟨-, h⟩; exact h3 h),
        iff_of_true rfl (not_lt.mp h3)⟩
  · refine ⟨?_, ?_, ?_, ?_, ?_⟩ <;>
      norm_num [GitState.drift_level, GitState.drift_minutes]

/-- C7 witness: the iff characterisation applied at age 1200s. -/
theorem drift_level_boundaries_witness :
    ({ last_commit_age_seconds := 1200 } : GitState).drift_level = "warm" :=
  ((drift_level_boundaries.1 _).2.1).mpr
    (by norm_num [GitState.drift_minutes])

/-! ### C2: conflicts and modified never both incremented -/

/-- C2: no porcelain status line increments both `conflicts` and `modified`;
a line such as "MM f" increments both `staged` and `modified`. -/
theorem status_line_conflict_modified_exclusive :
    (∀ (st : GitState) (line : List Char),
      (statusStep st line).conflicts = st.conflicts ∨
      (statusStep st line).modified = st.modified) ∧
    (statusStep {} ('M' :: 'M' :: ' ' :: ['f'])).staged = 1 ∧
    (statusStep {} ('M' :: 'M' :: ' ' :: ['f'])).modified = 1 ∧
    (statusStep {} ('M' :: 'M' :: ' ' :: ['f'])).conflicts = 0 := by
  refine ⟨?_, by decide, by decide, by decide⟩
  intro st line
  match line with
  | [] => exact Or.inl rfl
  | [_] => exact Or.inl rfl
  | x :: y :: rest =>
    simp only [statusStep]
    split_ifs with h1 h2 h3 h4 h5 h6 h7 h8 <;> simp_all

/-! ### C9: CPU history bounded by 30, FIFO eviction -/

lemma cpuPush_drop (l : List ℚ) (s : ℚ) :
    cpuPush (l.drop (l.length - 30)) s = (l ++ [s]).drop ((l ++ [s]).length - 30) := by
  rcases le_or_lt l.length 29 with h | h
  · have e0 : l.length - 30 = 0 := by omega
    have e1 : (l ++ [s]).length - 30 = 0 := by
      simp only [List.length_append, List.length_cons, List.length_nil]; omega
    rw [e0, List.drop_zero, e1, List.drop_zero]
    simp only [cpuPush]
    rw [if_neg (by simp only [List.length_append, List.length_cons, List.length_nil]; omega)]
  · have hlen : (l.drop (l.length - 30)).length = 30 := by
      rw [List.length_drop]; omega
    simp only [cpuPush]
    rw [if_pos (by rw [List.length_append, hlen]; simp)]
    have e2 : (l.drop (l.length - 30) ++ [s]).length - 30 = 1 := by
      rw [List.length_append, hlen]; simp
    have e3 : (l ++ [s]).length - 30 = l.length - 29 := by
      simp only [List.length_append, List.length_cons, List.length_nil]; omega
    rw [e2, e3,
      List.drop_append_of_le_length (by omega : 1 ≤ (l.drop (l.length - 30)).length),
      List.drop_drop,
      List.drop_append_of_le_length (le_of_lt (by omega : l.length - 29 < l.length))]
    congr 2
    omega

lemma foldl_cpuPush (samples : List ℚ) :
    ∀ l : List ℚ,
      samples.foldl cpuPush (l.drop (l.length - 30)) =
        (l ++ samples).drop ((l ++ samples).length - 30) := by
  induction samples with
  | nil => intro l; simp
  | cons s rest ih =>
    intro l
    rw [List.foldl_cons, cpuPush_drop l s, ih (l ++ [s])]
    simp

/-- C9: after any number of `collect_system` calls the CPU rolling buffer
(and hence the snapshot's `cpu_history`, which copies it) has length at most
30 and holds exactly the 30 most recent samples, oldest evicted first. -/
theorem cpu_history_bounded :
    ∀ samples : List ℚ,
      (cpuHistoryAfter samples).length ≤ 30 ∧
      cpuHistoryAfter samples = samples.drop (samples.length - 30) := by
  intro samples
  have h := foldl_cpuPush samples []
  simp at h
  unfold cpuHistoryAfter
  rw [h]
  constructor
  · rw [List.length_drop]; omega
  · rfl

/-! ### C3: command categories (the source's enum has `claude`, not
`assistant`) -/

lemma lookupCategory_mem (base : String) (t : List (String × List String)) :
    lookupCategory base t ∈ "other" :: t.map Prod.fst := by
  induction t with
  | nil => simp [lookupCategory]
  | cons p rest ih =>
    obtain ⟨cat, cmds⟩ := p
    simp only [lookupCategory]
    split_ifs
    · simp
    · rcases List.mem_cons.mp ih with h | h
      · simp [h]
      · right; right; exact h

/-- C3 counterexample: the classifier maps `"claude"` to the category
`"claude"`, which is not in the claimed enum (the claim lists `assistant`
instead). -/
theorem categorize_command_claude_counterexample :
    categorize_command ("claude".toList) = "claude" ∧
    "claude" ∉ ["git", "python", "node", "build", "navigate", "edit", "docker",
                "shell", "network", "assistant", "other"] := by
  constructor
  · decide
  · decide

/-- C3 (amended): every result of the command classifier is in the enum
{git, python, node, build, navigate, edit, docker, shell, network, claude,
other}. -/
theorem categorize_command_enum :
    ∀ cmd : List Char, categorize_command cmd ∈
      ["git", "python", "node", "build", "navigate", "edit", "docker", "shell",
       "network", "claude", "other"] := by
  intro cmd
  have h := lookupCategory_mem
    (((splitOnChar '/'
      (if pyStrip cmd ≠ [] then (wsTokens (pyStrip cmd)).headD [] else [])).getLastD
        []).asString) COMMAND_CATEGORIES
  have hsub : ("other" :: COMMAND_CATEGORIES.map Prod.fst) ⊆
      ["git", "python", "node", "build", "navigate", "edit", "docker", "shell",
       "network", "claude", "other"] := by decide
  exact hsub h

/-! ### C4: collect_commands ordering, truncation, and the limit = 0 slice
quirk -/

lemma pySliceLast_suffix {α : Type} (limit : ℤ) (l : List α) :
    pySliceLast limit l <:+ l := by
  unfold pySliceLast
  split_ifs <;> exact List.drop_suffix _ _

lemma suffix_filterMap {α β : Type} (f : α → Option β) {l₁ l₂ : List α}
    (h : l₁ <:+ l₂) : l₁.filterMap f <:+ l₂.filterMap f := by
  obtain ⟨t, ht⟩ := h
  exact ⟨t.filterMap f, by rw [← List.filterMap_append, ht]⟩

lemma pySliceLast_length_le {α : Type} {limit : ℤ} (h : 1 ≤ limit) (l : List α) :
    (pySliceLast limit l).length ≤ limit.toNat := by
  unfold pySliceLast
  rw [if_pos (by omega)]
  rw [List.length_drop]
  omega

/-- C4 counterexample: the claim quantifies over every limit value, but with
`limit = 0` the Python slice `lines[-limit:]` is `lines[0:]`, the whole
file, so a one-line history yields one entry, not at most 0. -/
theorem collect_commands_limit_zero_counterexample :
    (collect_commands (some ("ls".toList)) 0).length = 1 ∧
    ¬ ((collect_commands (some ("ls".toList)) 0).length ≤ 0) := by
  constructor <;> decide

/-- C4 (amended): `collect_commands` returns the empty list when no history
file is readable; its entries are, in file order, the successfully parsed
suffix lines (a suffix of the parse of the whole file); and for every
positive limit at most `limit` entries are returned. -/
theorem collect_commands_order_limit :
    (∀ limit : ℤ, collect_commands none limit = []) ∧
    (∀ (content : List Char) (limit : ℤ),
      collect_commands (some content) limit <:+
        (pySplitlines content).filterMap parseHistLine) ∧
    (∀ (content : List Char) (limit : ℤ), 1 ≤ limit →
      (collect_commands (some content) limit).length ≤ limit.toNat) := by
  refine ⟨fun _ => rfl, ?_, ?_⟩
  · intro content limit
    exact suffix_filterMap parseHistLine (pySliceLast_suffix limit (pySplitlines content))
  · intro content limit h
    calc (collect_commands (some content) limit).length
        ≤ (pySliceLast limit (pySplitlines content)).length :=
          List.length_filterMap_le _ _
      _ ≤ limit.toNat := pySliceLast_length_le h _

/-- C4 witness: the amended length bound applied at limit 1 on a two-line
history. -/
theorem collect_commands_order_limit_witness :
    (collect_commands (some ("ls\ncd x".toList)) 1).length ≤ (1 : ℤ).toNat :=
  collect_commands_order_limit.2.2 ("ls\ncd x".toList) 1 (by decide)

/-! ### C10: every returned entry has nonblank raw and command fields -/

lemma dropWhile_head_false {α : Type} {p : α → Bool} :
    ∀ {l : List α} {a : α} {t : List α}, l.dropWhile p = a :: t → p a = false := by
  intro l
  induction l with
  | nil => intro a t h; simp at h
  | cons b bs ih =>
    intro a t h
    rw [List.dropWhile_cons] at h
    split at h
    · exact ih h
    · cases h
      simpa using ‹¬ p b = true›

lemma dropWhile_suffix {α : Type} (p : α → Bool) (l : List α) :
    l.dropWhile p <:+ l := by
  induction l with
  | nil => simp
  | cons a t ih =>
    rw [List.dropWhile_cons]
    split
    · exact ih.trans (List.suffix_cons a t)
    · exact List.suffix_refl _

lemma dropWhile_idem {α : Type} (p : α → Bool) (l : List α) :
    (l.dropWhile p).dropWhile p = l.dropWhile p := by
  cases h : l.dropWhile p with
  | nil => simp
  | cons a t =>
    rw [List.dropWhile_cons, dropWhile_head_false h]
    simp

lemma suffix_reverse_of_suffix {α : Type} {s t : List α} (h : s <:+ t) :
    s.reverse <+: t.reverse := by
  obtain ⟨u, rfl⟩ := h
  exact ⟨u.reverse, by rw [← List.reverse_append]⟩

lemma wsTokens_single (c : Char) :
    wsTokens [c] = if c.isWhitespace then [] else [[c]] := rfl

lemma wsTokens_cons_cons (c d : Char) (ds : List Char) :
    wsTokens (c :: d :: ds) =
      if c.isWhitespace then wsTokens (d :: ds)
      else if d.isWhitespace then [c] :: wsTokens (d :: ds)
      else
        match wsTokens (d :: ds) with
        | t :: ts => (c :: t) :: ts
        | [] => [[c]] := rfl

lemma pyStrip_head_not_ws {l : List Char} {c : Char} {t : List Char}
    (h : pyStrip l = c :: t) : c.isWhitespace = false := by
  have hsfx : (l.dropWhile Char.isWhitespace).reverse.dropWhile Char.isWhitespace <:+
      (l.dropWhile Char.isWhitespace).reverse := dropWhile_suffix _ _
  have hpre := suffix_reverse_of_suffix hsfx
  rw [List.reverse_reverse] at hpre
  unfold pyStrip at h
  rw [h] at hpre
  obtain ⟨u, hu⟩ := hpre
  cases hd : l.dropWhile Char.isWhitespace with
  | nil => rw [hd] at hu; simp at hu
  | cons a s =>
    rw [hd] at hu
    simp only [List.cons_append] at hu
    injection hu with h1 h2
    subst h1
    exact dropWhile_head_false hd

lemma pyStrip_idem (l : List Char) : pyStrip (pyStrip l) = pyStrip l := by
  cases h : pyStrip l with
  | nil => rfl
  | cons c t =>
    have hc : c.isWhitespace = false := pyStrip_head_not_ws h
    have hrev : (c :: t).reverse =
        (l.dropWhile Char.isWhitespace).reverse.dropWhile Char.isWhitespace := by
      rw [← h]
      unfold pyStrip
      rw [List.reverse_reverse]
    unfold pyStrip
    rw [List.dropWhile_cons]
    simp only [hc, Bool.false_eq_true, if_false]
    rw [hrev, dropWhile_idem, ← hrev, List.reverse_reverse]

lemma wsTokens_mem_ne_nil : ∀ (l : List Char), ∀ t ∈ wsTokens l, t ≠ [] := by
  intro l
  induction l with
  | nil => intro t ht; simp [wsTokens] at ht
  | cons c cs ih =>
    intro t ht
    cases cs with
    | nil =>
      rw [wsTokens_single] at ht
      split_ifs at ht
      · simp at ht
      · simp at ht
        simp [ht]
    | cons d ds =>
      rw [wsTokens_cons_cons] at ht
      by_cases hc : c.isWhitespace
      · rw [if_pos hc] at ht
        exact ih t ht
      · rw [if_neg hc] at ht
        by_cases hd : d.isWhitespace
        · rw [if_pos hd] at ht
          rcases List.mem_cons.mp ht with h | h
          · simp [h]
          · exact ih t h
        · rw [if_neg hd] at ht
          rcases hr : wsTokens (d :: ds) with _ | ⟨t0, ts⟩
          · rw [hr] at ht
            simp at ht
            simp [ht]
          · rw [hr] at ht
            rcases List.mem_cons.mp ht with h | h
            · simp [h]
            · exact ih t (by rw [hr]; exact List.mem_cons_of_mem _ h)

lemma wsTokens_cons_ne_nil {c : Char} (cs : List Char) (hc : ¬ c.isWhitespace) :
    wsTokens (c :: cs) ≠ [] := by
  cases cs with
  | nil =>
    rw [wsTokens_single, if_neg hc]
    simp
  | cons d ds =>
    rw [wsTokens_cons_cons, if_neg hc]
    by_cases hd : d.isWhitespace
    · rw [if_pos hd]
      simp
    · rw [if_neg hd]
      rcases hr : wsTokens (d :: ds) with _ | ⟨t0, ts⟩ <;> simp

/-- C10: every entry returned by `collect_commands` has a nonempty `raw`
(the stripped command text, already stripped) and a nonempty `command`
(its first whitespace-delimited token); blank lines produce no entry. -/
theorem collect_commands_entries_nonblank :
    ∀ (histfile : Option (List Char)) (limit : ℤ) (e : CommandEntry),
      e ∈ collect_commands histfile limit →
      e.raw ≠ [] ∧ e.command ≠ [] ∧ e.raw = pyStrip e.raw ∧
      e.command = (wsTokens e.raw).headD [] := by
  intro histfile limit e he
  match histfile with
  | none => simp [collect_commands] at he
  | some content =>
    simp only [collect_commands] at he
    obtain ⟨line, -, hp⟩ := List.mem_filterMap.mp he
    simp only [parseHistLine] at hp
    generalize (extractHistCmd line).2 = cmd0 at hp
    split_ifs at hp with hne
    cases hp
    refine ⟨hne, ?_, (pyStrip_idem _).symm, rfl⟩
    cases hs : pyStrip cmd0 with
    | nil => exact absurd hs hne
    | cons c t =>
      have hc : ¬ c.isWhitespace = true := by
        simp [pyStrip_head_not_ws hs]
      simp only [hs]
      rcases hw : wsTokens (c :: t) with _ | ⟨t0, ts⟩
      · exact absurd hw (wsTokens_cons_ne_nil t hc)
      · simp only [List.headD_cons]
        exact wsTokens_mem_ne_nil (c :: t) t0 (by rw [hw]; exact List.mem_cons_self _ _)

/-- A concrete parsed history entry, used as the C10 witness input. -/
def sampleEntry : CommandEntry :=
  { raw := "ls -la".toList, command := "ls".toList, category := "navigate",
    timestamp := none }

/-- C10 witness: the guarantee applied to the entry parsed from the
one-line history "ls -la". -/
theorem collect_commands_entries_nonblank_witness :
    sampleEntry.raw ≠ [] ∧ sampleEntry.command ≠ [] ∧
    sampleEntry.raw = pyStrip sampleEntry.raw ∧
    sampleEntry.command = (wsTokens sampleEntry.raw).headD [] :=
  collect_commands_entries_nonblank (some ("ls -la".toList)) 5 sampleEntry (by decide)

/-! ### C6: non-repository working directory -/

/-- C6: when the repository probe does not answer `"true"`, `collect_git`
returns the default snapshot (`is_repo = false`, empty branch, clean), and
`collect_diff_files` and `collect_file_heatmap` return empty lists. -/
theorem non_repo_empty_snapshots :
    ∀ env : GitEnv, env.run ["rev-parse", "--is-inside-work-tree"] ≠ some "true" →
      collect_git env = some {} ∧
      ({} : GitState).is_repo = false ∧
      ({} : GitState).branch = "" ∧
      ({} : GitState).is_clean = true ∧
      collect_diff_files env = some [] ∧
      ∀ commits limit : ℕ, collect_file_heatmap env commits limit = [] := by
  intro env h
  refine ⟨?_, rfl, rfl, rfl, ?_, ?_⟩
  · unfold collect_git
    rw [if_pos h]
  · unfold collect_diff_files
    rw [if_pos h]
  · intro commits limit
    unfold collect_file_heatmap
    rw [if_pos h]

/-- A git environment in which every external command fails. -/
def deadGitEnv : GitEnv := { run := fun _ => none, now := 0 }

/-- C6 witness: the guarantee applied to an environment where git always
fails. -/
theorem non_repo_empty_snapshots_witness :
    collect_git deadGitEnv = some {} ∧
    ({} : GitState).is_repo = false ∧
    ({} : GitState).branch = "" ∧
    ({} : GitState).is_clean = true ∧
    collect_diff_files deadGitEnv = some [] ∧
    ∀ commits limit : ℕ, collect_file_heatmap deadGitEnv commits limit = [] :=
  non_repo_empty_snapshots deadGitEnv (by simp [deadGitEnv])

/-! ### C5: staged and unstaged numstat counts accumulate -/

/-- The first `DiffFile` with a given path: both numstat passes update
exactly this file (their `for f in files ... break` loop). -/
def findPath (p : List Char) : List DiffFile → Option DiffFile
  | [] => none
  | f :: fs => if f.path = p then some f else findPath p fs

/-- The path field of a numstat output line, when the line has exactly three
tab-separated fields. -/
def numstatPath (line : List Char) : Option (List Char) :=
  match splitOnChar '\t' line with
  | [_, _, fpath] => some fpath
  | _ => none

lemma findPath_updateFirst_ne {staged : Bool} {ins dels q : List Char}
    {p : List Char} (hne : q ≠ p) :
    ∀ {fs fs' : List DiffFile}, updateFirst staged ins dels q fs = some fs' →
      findPath p fs' = findPath p fs := by
  intro fs
  induction fs with
  | nil =>
    intro fs' h
    simp only [updateFirst] at h
    cases h
    rfl
  | cons f rest ih =>
    intro fs' h
    simp only [updateFirst] at h
    by_cases hf : f.path = q
    · rw [if_pos hf] at h
      rcases hti : toCount ins with _ | i <;> rw [hti] at h
      · simp at h
      · rcases htd : toCount dels with _ | d <;> rw [htd] at h
        · simp at h
        · simp at h
          subst h
          have hfp : ¬ f.path = p := by rw [hf]; exact hne
          cases staged <;> simp [findPath, hfp]
    · rw [if_neg hf] at h
      rcases hrest : updateFirst staged ins dels q rest with _ | rest' <;>
        rw [hrest] at h
      · simp at h
      · simp at h
        subst h
        simp only [findPath]
        split_ifs
        · rfl
        · exact ih hrest

lemma findPath_applyLine_ne {staged : Bool} {line : List Char} {p : List Char}
    (hne : numstatPath line ≠ some p) :
    ∀ {fs fs' : List DiffFile}, applyNumstatLine staged fs line = some fs' →
      findPath p fs' = findPath p fs := by
  intro fs fs' h
  unfold applyNumstatLine at h
  unfold numstatPath at hne
  rcases hsp : splitOnChar '\t' line with _ | ⟨a, _ | ⟨b, _ | ⟨c, _ | _⟩⟩⟩ <;>
    rw [hsp] at h hne <;>
    first
      | (cases h; rfl)
      | (exact findPath_updateFirst_ne (by simpa using hne) h)

lemma findPath_applyNumstat_ne {staged : Bool} {p : List Char} :
    ∀ {lines : List (List Char)} {fs fs' : List DiffFile},
      (∀ l ∈ lines, numstatPath l ≠ some p) →
      applyNumstat staged lines fs = some fs' →
      findPath p fs' = findPath p fs := by
  intro lines
  induction lines with
  | nil =>
    intro fs fs' _ h
    cases h
    rfl
  | cons l rest ih =>
    intro fs fs' hne h
    rw [applyNumstat, List.foldlM_cons] at h
    obtain ⟨fs₁, h1, h2⟩ := Option.bind_eq_some.mp h
    have e1 := findPath_applyLine_ne (hne l (List.mem_cons_self l rest)) h1
    have e2 := ih (fun x hx => hne x (List.mem_cons_of_mem l hx)) h2
    rw [e2, e1]

lemma findPath_updateFirst_eq {staged : Bool} {ins dels p : List Char}
    {i d : ℤ} (hi : toCount ins = some i) (hd : toCount dels = some d) :
    ∀ {fs fs' : List DiffFile} {f : DiffFile}, findPath p fs = some f →
      updateFirst staged ins dels p fs = some fs' →
      findPath p fs' = some (if staged then
        { f with insertions := f.insertions + i, deletions := f.deletions + d }
      else { f with insertions := i, deletions := d }) := by
  intro fs
  induction fs with
  | nil => intro fs' f hf; simp [findPath] at hf
  | cons g rest ih =>
    intro fs' f hf h
    simp only [updateFirst] at h
    simp only [findPath] at hf
    by_cases hg : g.path = p
    · rw [if_pos hg] at hf h
      cases hf
      rw [hi, hd] at h
      simp at h
      subst h
      cases staged <;> simp [findPath, hg]
    · rw [if_neg hg] at hf h
      rcases hrest : updateFirst staged ins dels p rest with _ | rest' <;>
        rw [hrest] at h
      · simp at h
      · simp at h
        subst h
        simp only [findPath, if_neg hg]
        exact ih hf hrest

lemma parseStatusFiles_zero (lines : List (List Char)) :
    ∀ f ∈ parseStatusFiles lines, f.insertions = 0 ∧ f.deletions = 0 := by
  unfold parseStatusFiles
  suffices h : ∀ (acc : List DiffFile × List (List Char)),
      (∀ f ∈ acc.1, f.insertions = 0 ∧ f.deletions = 0) →
      ∀ f ∈ (lines.foldl
        (fun (acc : List DiffFile × List (List Char)) line =>
          match line with
          | x :: y :: _ :: rest =>
            let path := renameTarget (pyStrip rest)
            if path ∈ acc.2 then acc
            else (acc.1 ++ [{ path := path, status := statusCode x y }], path :: acc.2)
          | _ => acc)
        acc).1, f.insertions = 0 ∧ f.deletions = 0 by
    exact h ([], []) (by simp)
  induction lines with
  | nil => intro acc hacc; simpa using hacc
  | cons line rest ih =>
    intro acc hacc
    rw [List.foldl_cons]
    apply ih
    rcases line with _ | ⟨x, _ | ⟨y, _ | ⟨z, tail⟩⟩⟩ <;> try exact hacc
    dsimp only
    split_ifs
    · exact hacc
    · intro f hf
      rcases List.mem_append.mp hf with h | h
      · exact hacc f h
      · simp at h
        simp [h]

/-- C5: a path appearing exactly once in the unstaged numstat output (with
counts `ui`/`ud`, a `"-"` parsing as 0) and exactly once in the staged
output (with counts `si`/`sd`) ends with `insertions = ui + si` and
`deletions = ud + sd`: the unstaged pass assigns and the staged pass adds.
Files produced by the status phase start at zero counts. -/
theorem numstat_counts_accumulate :
    (∀ (files files₁ files₂ : List DiffFile) (f : DiffFile)
      (p uis uds sis sds u s : List Char) (U1 U2 S1 S2 : List (List Char))
      (ui ud si sd : ℤ),
      findPath p files = some f →
      (∀ l ∈ U1 ++ U2, numstatPath l ≠ some p) →
      (∀ l ∈ S1 ++ S2, numstatPath l ≠ some p) →
      splitOnChar '\t' u = [uis, uds, p] →
      toCount uis = some ui → toCount uds = some ud →
      splitOnChar '\t' s = [sis, sds, p] →
      toCount sis = some si → toCount sds = some sd →
      applyNumstat false (U1 ++ u :: U2) files = some files₁ →
      applyNumstat true (S1 ++ s :: S2) files₁ = some files₂ →
      findPath p files₂ = some { f with insertions := ui + si, deletions := ud + sd }) ∧
    (∀ (lines : List (List Char)), ∀ f ∈ parseStatusFiles lines,
      f.insertions = 0 ∧ f.deletions = 0) := by
  constructor
  · intro files files₁ files₂ f p uis uds sis sds u s U1 U2 S1 S2 ui ud si sd
      hf hU hS hu hui hud hs hsi hsd h1 h2
    have hU1 : ∀ l ∈ U1, numstatPath l ≠ some p :=
      fun l hl => hU l (List.mem_append_left _ hl)
    have hU2 : ∀ l ∈ U2, numstatPath l ≠ some p :=
      fun l hl => hU l (List.mem_append_right _ hl)
    have hS1 : ∀ l ∈ S1, numstatPath l ≠ some p :=
      fun l hl => hS l (List.mem_append_left _ hl)
    have hS2 : ∀ l ∈ S2, numstatPath l ≠ some p :=
      fun l hl => hS l (List.mem_append_right _ hl)
    -- unstaged pass
    rw [applyNumstat, List.foldlM_append] at h1
    obtain ⟨fa, ha, h1⟩ := Option.bind_eq_some.mp h1
    rw [List.foldlM_cons] at h1
    obtain ⟨fb, hb, h1⟩ := Option.bind_eq_some.mp h1
    have hfa : findPath p fa = some f := by
      rw [findPath_applyNumstat_ne hU1 ha]; exact hf
    have hfb : findPath p fb =
        some { f with insertions := ui, deletions := ud } := by
      have : applyNumstatLine false fa u = some fb := hb
      unfold applyNumstatLine at this
      rw [hu] at this
      simpa using findPath_updateFirst_eq hui hud hfa this
    have hf1 : findPath p files₁ =
        some { f with insertions := ui, deletions := ud } := by
      rw [findPath_applyNumstat_ne hU2 h1]; exact hfb
    -- staged pass
    rw [applyNumstat, List.foldlM_append] at h2
    obtain ⟨ga, hga, h2⟩ := Option.bind_eq_some.mp h2
    rw [List.foldlM_cons] at h2
    obtain ⟨gb, hgb, h2⟩ := Option.bind_eq_some.mp h2
    have hga' : findPath p ga =
        some { f with insertions := ui, deletions := ud } := by
      rw [findPath_applyNumstat_ne hS1 hga]; exact hf1
    have hgb' : findPath p gb =
        some { f with insertions := ui + si, deletions := ud + sd } := by
      have : applyNumstatLine true ga s = some gb := hgb
      unfold applyNumstatLine at this
      rw [hs] at this
      simpa using findPath_updateFirst_eq hsi hsd hga' this
    rw [findPath_applyNumstat_ne hS2 h2]
    exact hgb'
  · exact parseStatusFiles_zero

/-- C5 witness: one file `a.txt`, unstaged line `3<TAB>-<TAB>a.txt` (binary
deletions count 0) and staged line `2<TAB>1<TAB>a.txt` accumulate to
insertions 5, deletions 1. -/
theorem numstat_counts_accumulate_witness :
    findPath ("a.txt".toList)
      [{ path := "a.txt".toList, status := "M", insertions := 5, deletions := 1,
         diff_lines := [] }] =
      some { path := "a.txt".toList, status := "M", insertions := 3 + 2,
             deletions := 0 + 1, diff_lines := [] } :=
  numstat_counts_accumulate.1
    [{ path := "a.txt".toList, status := "M" }]
    [{ path := "a.txt".toList, status := "M", insertions := 3, deletions := 0 }]
    [{ path := "a.txt".toList, status := "M", insertions := 5, deletions := 1 }]
    { path := "a.txt".toList, status := "M" }
    ("a.txt".toList) ("3".toList) ("-".toList) ("2".toList) ("1".toList)
    ("3\t-\ta.txt".toList) ("2\t1\ta.txt".toList)
    [] [] [] [] 3 0 2 1
    (by decide) (by decide) (by decide) (by decide) (by decide) (by decide)
    (by decide) (by decide) (by decide) (by decide) (by decide)

/-! ### C8: command diversity is normalized Shannon entropy in [0,1] -/

/-- The spec's formula for `commandDiversity` when at least two distinct
categories occur, stated from the spec's words for comparison with the
implementation: `-Σ p·log2(p)` over the category histogram with
`p = count/total`, divided by `log2(distinctCategoryCount)`, rounded to 2
decimals. -/
noncomputable def shannonDiversitySpec (commands : List CommandEntry) : ℝ :=
  pyRound2
    ((-(((commands.map CommandEntry.category).dedup.map
        (fun c => (((commands.map CommandEntry.category).count c : ℝ) /
            ((commands.map CommandEntry.category).length : ℝ)) *
          Real.logb 2 (((commands.map CommandEntry.category).count c : ℝ) /
            ((commands.map CommandEntry.category).length : ℝ)))).sum)) /
      Real.logb 2 (((commands.map CommandEntry.category).dedup.length : ℕ) : ℝ))

lemma dedup_toFinset {α : Type} [DecidableEq α] (l : List α) :
    l.dedup.toFinset = l.toFinset := by
  ext a
  simp [List.mem_dedup]

lemma sum_count_dedup {α : Type} [DecidableEq α] (l : List α) :
    (l.dedup.map fun c => l.count c).sum = l.length := by
  rw [← List.sum_toFinset _ l.nodup_dedup, dedup_toFinset]
  exact List.sum_toFinset_count_eq_length l

/-- Gibbs' inequality: a probability vector on a finite support has Shannon
entropy (natural log) at most the log of the support size. -/
lemma neg_sum_mul_log_le_log_card {α : Type} [DecidableEq α] (s : Finset α)
    (p : α → ℝ) (hpos : ∀ a ∈ s, 0 < p a) (hsum : ∑ a ∈ s, p a = 1) :
    -∑ a ∈ s, p a * Real.log (p a) ≤ Real.log (s.card : ℝ) := by
  have hne : s.Nonempty := by
    rcases Finset.eq_empty_or_nonempty s with rfl | h
    · simp at hsum
    · exact h
  have hk : (0 : ℝ) < (s.card : ℝ) := by
    exact_mod_cast Finset.card_pos.mpr hne
  have key : ∀ a ∈ s, p a * Real.log (1 / ((s.card : ℝ) * p a)) ≤
      1 / (s.card : ℝ) - p a := by
    intro a ha
    have hpa := hpos a ha
    have harg : (0 : ℝ) < 1 / ((s.card : ℝ) * p a) := by positivity
    have hlog := Real.log_le_sub_one_of_pos harg
    calc p a * Real.log (1 / ((s.card : ℝ) * p a))
        ≤ p a * (1 / ((s.card : ℝ) * p a) - 1) :=
          mul_le_mul_of_nonneg_left hlog (le_of_lt hpa)
      _ = 1 / (s.card : ℝ) - p a := by field_simp; ring
  have hsumle := Finset.sum_le_sum key
  have hrhs : ∑ a ∈ s, (1 / (s.card : ℝ) - p a) = 0 := by
    rw [Finset.sum_sub_distrib, hsum, Finset.sum_const, nsmul_eq_mul]
    field_simp
  have hterm : ∀ a ∈ s, p a * Real.log (1 / ((s.card : ℝ) * p a)) =
      -Real.log (s.card : ℝ) * p a + -(p a * Real.log (p a)) := by
    intro a ha
    have hpa := hpos a ha
    rw [one_div, Real.log_inv, Real.log_mul (ne_of_gt hk) (ne_of_gt hpa)]
    ring
  rw [Finset.sum_congr rfl hterm, Finset.sum_add_distrib, ← Finset.mul_sum, hsum,
    Finset.sum_neg_distrib, hrhs] at hsumle
  linarith

lemma neg_sum_mul_log_nonneg {α : Type} (s : Finset α) (p : α → ℝ)
    (hpos : ∀ a ∈ s, 0 < p a) (hle : ∀ a ∈ s, p a ≤ 1) :
    0 ≤ -∑ a ∈ s, p a * Real.log (p a) := by
  have h : ∑ a ∈ s, p a * Real.log (p a) ≤ 0 := by
    apply Finset.sum_nonpos
    intro a ha
    exact mul_nonpos_of_nonneg_of_nonpos (le_of_lt (hpos a ha))
      (Real.log_nonpos (le_of_lt (hpos a ha)) (hle a ha))
  linarith

lemma pyRound2_mem_Icc {x : ℝ} (h0 : 0 ≤ x) (h1 : x ≤ 1) :
    0 ≤ pyRound2 x ∧ pyRound2 x ≤ 1 := by
  have hb : x * 100 ≤ ((100 : ℤ) : ℝ) := by push_cast; nlinarith
  have h := rhe_mem_Icc (by positivity) hb
  unfold pyRound2
  constructor
  · have : (0 : ℝ) ≤ (rhe (x * 100) : ℝ) := by exact_mod_cast h.1
    linarith
  · have : (rhe (x * 100) : ℝ) ≤ 100 := by exact_mod_cast h.2
    linarith

/-- Entropy bounds for the category list: the normalized-entropy numerator
lies between 0 and `logb 2 (distinct count)`. -/
lemma list_entropy_bounds (cats : List String) (hlen : 1 < cats.dedup.length) :
    0 ≤ -(cats.dedup.map (fun c => ((cats.count c : ℝ) / (cats.length : ℝ)) *
        Real.logb 2 ((cats.count c : ℝ) / (cats.length : ℝ)))).sum ∧
    -(cats.dedup.map (fun c => ((cats.count c : ℝ) / (cats.length : ℝ)) *
        Real.logb 2 ((cats.count c : ℝ) / (cats.length : ℝ)))).sum ≤
      Real.logb 2 ((cats.dedup.length : ℕ) : ℝ) := by
  have hT : 0 < cats.length := by
    cases cats with
    | nil => simp at hlen
    | cons a l => simp
  have hTR : (0 : ℝ) < (cats.length : ℝ) := by exact_mod_cast hT
  set p : String → ℝ := fun c => (cats.count c : ℝ) / (cats.length : ℝ) with hp
  have hpos : ∀ c ∈ cats.toFinset, 0 < p c := by
    intro c hc
    have : 0 < cats.count c := List.count_pos_iff.mpr (List.mem_toFinset.mp hc)
    have : (0 : ℝ) < (cats.count c : ℝ) := by exact_mod_cast this
    exact div_pos this hTR
  have hle1 : ∀ c ∈ cats.toFinset, p c ≤ 1 := by
    intro c hc
    have : cats.count c ≤ cats.length := List.count_le_length c cats
    have hcast : (cats.count c : ℝ) ≤ (cats.length : ℝ) := by exact_mod_cast this
    rw [hp]
    exact div_le_one_of_le hcast (le_of_lt hTR)
  have hsum : ∑ c ∈ cats.toFinset, p c = 1 := by
    rw [hp]
    rw [← Finset.sum_div]
    rw [show ∑ c ∈ cats.toFinset, (cats.count c : ℝ) =
        ((∑ c ∈ cats.toFinset, cats.count c : ℕ) : ℝ) by push_cast; rfl]
    rw [List.sum_toFinset_count_eq_length]
    field_simp
  have hlist : (cats.dedup.map (fun c => p c * Real.logb 2 (p c))).sum =
      ∑ c ∈ cats.toFinset, p c * Real.logb 2 (p c) := by
    rw [← List.sum_toFinset _ cats.nodup_dedup, dedup_toFinset]
  have hlogb : ∑ c ∈ cats.toFinset, p c * Real.logb 2 (p c) =
      (∑ c ∈ cats.toFinset, p c * Real.log (p c)) / Real.log 2 := by
    rw [Finset.sum_div]
    apply Finset.sum_congr rfl
    intro c _
    rw [Real.logb]
    ring
  have hcard : cats.toFinset.card = cats.dedup.length := List.card_toFinset cats
  have hgibbs := neg_sum_mul_log_le_log_card cats.toFinset p hpos hsum
  have hnn := neg_sum_mul_log_nonneg cats.toFinset p hpos hle1
  have hlog2 : (0 : ℝ) < Real.log 2 := Real.log_pos one_lt_two
  rw [hlist, hlogb]
  rw [hcard] at hgibbs
  constructor
  · rw [← neg_div]
    exact div_nonneg hnn (le_of_lt hlog2)
  · rw [← neg_div, Real.logb]
    exact (div_le_div_right hlog2).mpr hgibbs

lemma command_distribution_snd (commands : List CommandEntry) :
    (command_distribution commands).map Prod.snd =
      (commands.map CommandEntry.category).dedup.map
        (fun c => (commands.map CommandEntry.category).count c) := by
  unfold command_distribution
  rw [List.map_map]
  rfl

lemma command_distribution_length (commands : List CommandEntry) :
    (command_distribution commands).length =
      (commands.map CommandEntry.category).dedup.length := by
  unfold command_distribution
  rw [List.length_map]

lemma counts_filter_pos (commands : List CommandEntry) :
    ((commands.map CommandEntry.category).dedup.map
        (fun c => (commands.map CommandEntry.category).count c)).filter
      (fun c => 0 < c) =
      (commands.map CommandEntry.category).dedup.map
        (fun c => (commands.map CommandEntry.category).count c) := by
  apply List.filter_eq_self.mpr
  intro x hx
  obtain ⟨c, hc, rfl⟩ := List.mem_map.mp hx
  simpa using List.count_pos_iff.mpr (List.mem_dedup.mp hc)

lemma commandDiversity_eq_spec (commands : List CommandEntry) (hne : commands ≠ [])
    (hlen : 1 < (commands.map CommandEntry.category).dedup.length) :
    commandDiversity commands = shannonDiversitySpec commands := by
  cases commands with
  | nil => exact absurd rfl hne
  | cons e es =>
    simp only [commandDiversity]
    rw [command_distribution_snd, command_distribution_length, sum_count_dedup]
    rw [if_pos ⟨by simp, hlen⟩]
    rw [counts_filter_pos, List.map_map]
    rw [if_pos (Real.logb_pos one_lt_two (by exact_mod_cast hlen))]
    unfold shannonDiversitySpec
    norm_cast

lemma commandDiversity_eq_zero (commands : List CommandEntry)
    (hlen : (commands.map CommandEntry.category).dedup.length ≤ 1) :
    commandDiversity commands = 0 := by
  cases commands with
  | nil => rfl
  | cons e es =>
    simp only [commandDiversity]
    have hc : ¬ (0 < ((command_distribution (e :: es)).map Prod.snd).sum ∧
        1 < (command_distribution (e :: es)).length) := by
      rw [command_distribution_length]
      rintro ⟨-, h2⟩
      omega
    rw [if_neg hc]

lemma commandDiversity_mem_Icc (commands : List CommandEntry) :
    0 ≤ commandDiversity commands ∧ commandDiversity commands ≤ 1 := by
  by_cases hlen : 1 < (commands.map CommandEntry.category).dedup.length
  · have hne : commands ≠ [] := by
      intro h
      subst h
      simp at hlen
    rw [commandDiversity_eq_spec commands hne hlen]
    unfold shannonDiversitySpec
    have hb := list_entropy_bounds (commands.map CommandEntry.category) hlen
    have hlogk : 0 < Real.logb 2
        (((commands.map CommandEntry.category).dedup.length : ℕ) : ℝ) :=
      Real.logb_pos one_lt_two (by exact_mod_cast hlen)
    apply pyRound2_mem_Icc
    · exact div_nonneg hb.1 (le_of_lt hlogk)
    · rw [div_le_one hlogk]
      exact hb.2
  · rw [commandDiversity_eq_zero commands (by omega)]
    norm_num

/-- C8: `commandDiversity` is exactly 0 on the empty command list and when
fewer than two distinct categories occur; it always lies in `[0,1]`; and
with at least two distinct categories it equals the spec's normalized
Shannon entropy `-Σ p·log2(p) / log2(distinctCount)` rounded to 2
decimals. -/
theorem command_diversity_entropy :
    commandDiversity [] = 0 ∧
    (∀ commands : List CommandEntry,
      (commands.map CommandEntry.category).dedup.length ≤ 1 →
      commandDiversity commands = 0) ∧
    (∀ commands : List CommandEntry,
      0 ≤ commandDiversity commands ∧ commandDiversity commands ≤ 1) ∧
    (∀ commands : List CommandEntry, commands ≠ [] →
      1 < (commands.map CommandEntry.category).dedup.length →
      commandDiversity commands = shannonDiversitySpec commands) := by
  exact ⟨rfl, commandDiversity_eq_zero, commandDiversity_mem_Icc,
    commandDiversity_eq_spec⟩

/-- C8 witness: a two-entry single-category list has diversity exactly 0. -/
theorem command_diversity_entropy_witness :
    commandDiversity
      [{ raw := "git status".toList, command := "git".toList, category := "git",
         timestamp := none },
       { raw := "git log".toList, command := "git".toList, category := "git",
         timestamp := none }] = 0 :=
  command_diversity_entropy.2.1 _ (by decide)

/-! ### C1: flow score formula and range -/

lemma pyRound1_nonneg {x : ℚ} (h : 0 ≤ x) : 0 ≤ pyRound1 x := by
  unfold pyRound1
  have h1 : (0 : ℤ) ≤ rhe (x * 10) :=
    le_trans (Int.floor_nonneg.mpr (by positivity)) (floor_le_rhe _)
  have h2 : (0 : ℚ) ≤ (rhe (x * 10) : ℚ) := by exact_mod_cast h1
  positivity

/-- C1 counterexample: the claim quantifies over every `GitState`, but a
snapshot whose last commit lies in the future (negative
`last_commit_age_seconds`, as produced by clock skew) makes the drift
penalty arbitrarily negative, and the flow score escapes `[0,100]`: at age
-36000 s the score is 330. -/
theorem flow_score_counterexample :
    (collect_momentum { is_repo := true, last_commit_age_seconds := -36000 }
        [] none 0 0).flow_score = 330 ∧
    ¬ ((collect_momentum { is_repo := true, last_commit_age_seconds := -36000 }
        [] none 0 0).flow_score ≤ 100) := by
  have h : (collect_momentum { is_repo := true, last_commit_age_seconds := -36000 }
      [] none 0 0).flow_score = 330 := by
    simp only [collect_momentum, commitsFromLog, commandDiversity]
    norm_num [GitState.drift_minutes, pyRound1, rhe, Int.fract, round_eq, min_def]
  refine ⟨h, ?_⟩
  rw [h]
  norm_num

/-- C1 (amended): the flow score always equals
`round(100·(0.4·velocitySignal + 0.3·diversitySignal + 0.3·(1−driftPenalty)))`
with `velocitySignal = min(commitVelocityPerHour/3, 1)`,
`diversitySignal = commandDiversity` and
`driftPenalty = min(driftMinutes/60, 1)` for a repository (0.5 otherwise);
and whenever `lastCommitAgeSeconds` is nonnegative it lies in `[0,100]`. -/
theorem flow_score_bounds :
    ∀ (git : GitState) (commands : List CommandEntry) (logOut : Option String)
      (now start : ℚ),
      (collect_momentum git commands logOut now start).flow_score =
        ((rhe ((100 : ℝ) *
          ((0.4 : ℝ) * min
              (((collect_momentum git commands logOut now start).commit_velocity_per_hour : ℝ) / 3) 1 +
            (0.3 : ℝ) * (collect_momentum git commands logOut now start).command_diversity +
            (0.3 : ℝ) * (1 - (if git.is_repo then min ((git.drift_minutes : ℝ) / 60) 1
              else 0.5)))) : ℤ) : ℝ) ∧
      (0 ≤ git.last_commit_age_seconds →
        0 ≤ (collect_momentum git commands logOut now start).flow_score ∧
        (collect_momentum git commands logOut now start).flow_score ≤ 100) := by
  intro git commands logOut now start
  have hds := commandDiversity_mem_Icc commands
  have hvel : 0 ≤ pyRound1 ((commitsFromLog logOut : ℚ) /
      max ((now - start) / 60 / 60) (1 / 10)) := by
    apply pyRound1_nonneg
    apply div_nonneg (by positivity)
    exact le_trans (by norm_num) (le_max_right _ _)
  constructor
  · simp only [collect_momentum]
    congr 2
    rcases git.is_repo with _ | _ <;> simp <;> ring
  · intro h0
    simp only [collect_momentum]
    set v : ℚ := pyRound1 ((commitsFromLog logOut : ℚ) /
      max ((now - start) / 60 / 60) (1 / 10)) with hv
    set ds : ℝ := commandDiversity commands with hdsd
    set dp : ℚ := if git.is_repo then min (git.drift_minutes / 60) 1 else 1 / 2
      with hdp
    have hvr : (0 : ℝ) ≤ (v : ℝ) := by exact_mod_cast hvel
    have hm1 : (0 : ℝ) ≤ ((min (v / 3) 1 : ℚ) : ℝ) := by
      push_cast
      exact le_min (div_nonneg hvr (by norm_num)) (by norm_num)
    have hm2 : ((min (v / 3) 1 : ℚ) : ℝ) ≤ 1 := by
      push_cast
      exact min_le_right _ _
    have hdm : (0 : ℚ) ≤ git.drift_minutes := div_nonneg h0 (by norm_num)
    have hdpq1 : (0 : ℚ) ≤ dp := by
      rw [hdp]
      split_ifs
      · exact le_min (div_nonneg hdm (by norm_num)) (by norm_num)
      · norm_num
    have hdpq2 : dp ≤ 1 := by
      rw [hdp]
      split_ifs
      · exact min_le_right _ _
      · norm_num
    have hdp1 : (0 : ℝ) ≤ (dp : ℝ) := by exact_mod_cast hdpq1
    have hdp2 : (dp : ℝ) ≤ 1 := by exact_mod_cast hdpq2
    have hE1 : 0 ≤ (((min (v / 3) 1 : ℚ) : ℝ) * 0.4 + ds * 0.3 +
        (1 - (dp : ℝ)) * 0.3) * 100 := by
      nlinarith [hds.1, hds.2, hm1, hm2, hdp1, hdp2]
    have hE2 : (((min (v / 3) 1 : ℚ) : ℝ) * 0.4 + ds * 0.3 +
        (1 - (dp : ℝ)) * 0.3) * 100 ≤ (100 : ℝ) := by
      nlinarith [hds.1, hds.2, hm1, hm2, hdp1, hdp2]
    have hE2' : (((min (v / 3) 1 : ℚ) : ℝ) * 0.4 + ds * 0.3 +
        (1 - (dp : ℝ)) * 0.3) * 100 ≤ (((100 : ℤ) : ℤ) : ℝ) := by
      exact_mod_cast hE2
    have hr := rhe_mem_Icc hE1 hE2'
    constructor
    · exact_mod_cast hr.1
    · exact_mod_cast hr.2

/-- C1 witness: the amended range bound applied at the default snapshot
(age 0), no commands and a failed log query. -/
theorem flow_score_bounds_witness :
    0 ≤ (collect_momentum {} [] none 0 0).flow_score ∧
    (collect_momentum {} [] none 0 0).flow_score ≤ 100 :=
  (flow_score_bounds {} [] none 0 0).2 (by decide)

end Termpulse
